import Mathlib

/-!
Verification of the `scres` single-cell resampler crate.

The crate is a stateful bridge between a C-callable boundary and the
resampling core of the external `cres` library.  The resampler state and
its operations (`src/resampler.rs`) and the ingestion adapter
(`src/c_api.rs`) are embedded here directly.  The external collaborators
(nearest-neighbour search, cell construction, intra-cell resampling,
`EventBuilder`), which the specification scopes out and describes only at
their interface boundary, are modelled from the specification; every such
definition carries a doc comment starting with `Modelled from the spec:`.

Machine floating-point weights are modelled as exact rationals, so the
"within floating-point tolerance" qualifications of the specification
become exact equalities.
-/

/-- A four-momentum, the `[c_double; 4]` of the foreign boundary, with
components modelled as exact rationals. -/
structure FourMomentum where
  e : ℚ
  px : ℚ
  py : ℚ
  pz : ℚ
deriving DecidableEq

/-- An event (cres `Event`, at the granularity this crate uses): an ordered
sequence of statistical weights plus the ordered collection of outgoing
particles, each a particle id paired with its four-momentum. -/
structure Event where
  weights : List ℚ
  outgoing : List (Int × FourMomentum)
deriving DecidableEq

instance : Inhabited Event := ⟨⟨[], []⟩⟩

/-- Number of weights of an event (cres `Event::n_weights`). -/
def Event.n_weights (e : Event) : Nat := e.weights.length

/-- Nearest-neighbour search backend selector (cres `c_api::cres::Search`). -/
inductive Search where
  | Tree : Search
  | Naive : Search
deriving DecidableEq

/-- The single-cell resampler state (`Resampler<D>` in src/resampler.rs):
the distance metric, the configured backend, the event buffer, and the
last-retrieved-weights cache.  `capacity` models the allocation capacity of
the event buffer `Vec`; it is tracked explicitly so that `reserve` is not
the identity by definition yet has no observable effect. -/
structure Resampler where
  distance : Event → Event → ℚ
  neighbour_search : Search
  events : List Event
  last_retrieved_weights : List ℚ
  capacity : Nat

/-- Rust `Resampler::reserve` (src/resampler.rs lines 50-52):
`self.events.reserve(cap)` only ensures the buffer capacity is at least
`len + cap`; no observable field changes. -/
def Resampler.reserve (r : Resampler) (cap : Nat) : Resampler :=
  { r with capacity := max r.capacity (r.events.length + cap) }

/-- Rust `Resampler::push` (src/resampler.rs lines 55-57): appends the event
to the end of the buffer, growing the capacity if needed. -/
def Resampler.push (r : Resampler) (e : Event) : Resampler :=
  { r with
    events := r.events ++ [e]
    capacity := max r.capacity (r.events.length + 1) }

/-- Rust `Resampler::get_weights` (src/resampler.rs lines 60-64): copies the
weights of the event at `pos` into the last-retrieved-weights cache and
returns a view into that cache.  The out-of-range panic of `self.events[pos]`
is the explicit bounds error `none` in this safe embedding. -/
def Resampler.get_weights (r : Resampler) (pos : Nat) :
    Option (Resampler × List ℚ) :=
  match r.events[pos]? with
  | some e => some ({ r with last_retrieved_weights := e.weights }, e.weights)
  | none => none

/-- Rust `Resampler::get_num_weights` (src/resampler.rs lines 67-69), with
the out-of-range panic as the explicit bounds error `none`. -/
def Resampler.get_num_weights (r : Resampler) (pos : Nat) : Option Nat :=
  (r.events[pos]?).map Event.n_weights

/-- The overwrite loop of `Resampler::set_weights` (src/resampler.rs lines
76-79): `for (lhs, rhs) in target_weights.iter_mut().zip(weights)` rewrites
the zipped positions and leaves the tail of the existing weights in place. -/
def overwriteZipped (old ws : List ℚ) : List ℚ :=
  List.zipWith (fun _ b => b) old ws ++ old.drop ws.length

/-- Rust `Resampler::set_weights` (src/resampler.rs lines 72-80), with the
out-of-range panic as the explicit bounds error `none`. -/
def Resampler.set_weights (r : Resampler) (pos : Nat) (ws : List ℚ) :
    Option Resampler :=
  match r.events[pos]? with
  | some e =>
    some { r with
           events := r.events.set pos
             { e with weights := overwriteZipped e.weights ws } }
  | none => none

/-- Rust `Resampler::clear` (src/resampler.rs lines 83-85):
`self.events.clear()` empties the buffer; `Vec::clear` keeps the capacity
and nothing else is touched. -/
def Resampler.clear (r : Resampler) : Resampler :=
  { r with events := [] }

/-- The resampler builder (`ResamplerBuilder<D>` in src/resampler.rs). -/
structure ResamplerBuilder where
  distance : Event → Event → ℚ
  neighbour_search : Search

/-- Rust `ResamplerBuilder::build` (src/resampler.rs lines 124-135):
produces a resampler with the chosen configuration, an empty event buffer
and an empty cache. -/
def ResamplerBuilder.build (b : ResamplerBuilder) : Resampler :=
  { distance := b.distance
    neighbour_search := b.neighbour_search
    events := []
    last_retrieved_weights := []
    capacity := 0 }

/-- Pushing a sequence of events one by one onto a resampler. -/
def pushAll (r : Resampler) (evs : List Event) : Resampler :=
  evs.foldl Resampler.push r

/-- Distance between the events stored at indices `i` and `j` of the buffer,
as wrapped by cres `DistWrapper::new(&self.distance, &self.events)`. -/
def distAt (dist : Event → Event → ℚ) (events : List Event) (i j : Nat) : ℚ :=
  dist (events.getD i default) (events.getD j default)

/-- Modelled from the spec: the naive nearest-neighbour backend
(`NaiveNeighbourSearch`, external cres collaborator) is an exhaustive linear
scan over the whole buffer returning every event index whose distance from
the seed is within `maxCellSize`. -/
def naiveNeighbourSearch (dist : Event → Event → ℚ) (events : List Event)
    (maxCellSize : ℚ) (seed : Nat) : List Nat :=
  (List.range events.length).filter
    (fun j => decide (distAt dist events seed j ≤ maxCellSize))

/-- Modelled from the spec: the tree-based nearest-neighbour backend
(`TreeSearch`, external cres collaborator) answers the same bounded-radius
query through a distance-ordered spatial index; per the specification it
must return the same neighbour set as the naive scan, differing only in
traversal order and performance. -/
def treeSearch (dist : Event → Event → ℚ) (events : List Event)
    (maxCellSize : ℚ) (seed : Nat) : List Nat :=
  (List.insertionSort
    (fun i j => distAt dist events seed i ≤ distAt dist events seed j)
    (List.range events.length)).filter
    (fun j => decide (distAt dist events seed j ≤ maxCellSize))

/-- Modelled from the spec: `Cell::new` (external cres collaborator) builds
the neighbourhood of the seed bounded by the maximum cell size; the seed
event always belongs to its own cell. -/
def cellNew (neighbours : List Nat) (seed : Nat) : List Nat :=
  if seed ∈ neighbours then neighbours else seed :: neighbours

/-- Member indices of the cell that `resample_cell` constructs, following
the backend dispatch of src/resampler.rs lines 26-43. -/
def cellOf (r : Resampler) (seed : Nat) (maxCellSize : ℚ) : List Nat :=
  match r.neighbour_search with
  | Search.Tree =>
    cellNew (treeSearch r.distance r.events maxCellSize seed) seed
  | Search.Naive =>
    cellNew (naiveNeighbourSearch r.distance r.events maxCellSize seed) seed

/-- Sum of all weight entries of the events at the given member indices. -/
def memberWeightSum (events : List Event) (members : List Nat) : ℚ :=
  (members.map (fun j => ((events.getD j default).weights).sum)).sum

/-- Total number of weight entries of the events at the given member
indices. -/
def memberWeightCount (events : List Event) (members : List Nat) : Nat :=
  (members.map (fun j => ((events.getD j default).weights).length)).sum

/-- Modelled from the spec: `Cell::resample` (external cres collaborator)
redistributes the weights of the member events in place so that the total
weight sum over the cell is unchanged, driving individual weights toward
non-negative values; modelled as assigning every weight entry of every
member the uniform mean value.  Non-member events are untouched. -/
def cellResampleAt (events : List Event) (members : List Nat) (j : Nat) :
    Event :=
  let e := events.getD j default
  if j ∈ members then
    { e with weights := e.weights.map (fun _ =>
        memberWeightSum events members
          / (memberWeightCount events members : ℚ)) }
  else e

/-- The event buffer after the in-place weight redistribution of
`cellResample` over the member events. -/
def cellResample (events : List Event) (members : List Nat) : List Event :=
  (List.range events.length).map (cellResampleAt events members)

/-- Rust `Resampler::resample_cell` (src/resampler.rs lines 25-45): dispatch
on the configured backend, build the search structure over the entire
current buffer, build the cell around `seed` and resample it in place.  An
out-of-range seed is the explicit bounds error `none` in this safe
embedding. -/
def Resampler.resample_cell (r : Resampler) (seed : Nat) (maxCellSize : ℚ) :
    Option Resampler :=
  if seed < r.events.length then
    some { r with events := cellResample r.events (cellOf r seed maxCellSize) }
  else none

/-- A view of one particle-type grouping of a foreign event (cres
`TypeSetView`): particle id and the momenta; the foreign `n_momenta` count
equals the list length by the consistent-counts precondition. -/
structure TypeSetView where
  pid : Int
  momenta : List FourMomentum
deriving DecidableEq

/-- A foreign event view (cres `EventView`): informational id, the weight
array and the type-set array; the foreign `n_weights` and `n_type_sets`
counts equal the list lengths by the consistent-counts precondition. -/
structure EventView where
  id : Nat
  weights : List ℚ
  type_sets : List TypeSetView
deriving DecidableEq

/-- Modelled from the spec: `EventBuilder` (external cres collaborator)
accumulates weights and outgoing particles in insertion order;
`with_capacity` only pre-allocates storage. -/
structure EventBuilder where
  weights : List ℚ
  outgoing : List (Int × FourMomentum)

/-- Modelled from the spec: `EventBuilder::with_capacity` pre-allocates and
starts from the empty event. -/
def EventBuilder.with_capacity (_n_particles : Nat) : EventBuilder :=
  ⟨[], []⟩

/-- Modelled from the spec: `EventBuilder::add_weight` appends one weight,
preserving insertion order. -/
def EventBuilder.add_weight (b : EventBuilder) (w : ℚ) : EventBuilder :=
  { b with weights := b.weights ++ [w] }

/-- Modelled from the spec: `EventBuilder::add_outgoing` appends one
(particle id, four-momentum) pair, preserving insertion order. -/
def EventBuilder.add_outgoing (b : EventBuilder) (pid : Int)
    (p : FourMomentum) : EventBuilder :=
  { b with outgoing := b.outgoing ++ [(pid, p)] }

/-- Modelled from the spec: `EventBuilder::build` produces the accumulated
event. -/
def EventBuilder.build (b : EventBuilder) : Event :=
  { weights := b.weights, outgoing := b.outgoing }

/-- The ingestion adapter `impl From<ToEvent> for Event` (src/c_api.rs lines
212-243): sum the momenta counts for the capacity, then add every weight in
order, then for every type set in order add every (pid, momentum) pair in
order, and build. -/
def toEvent (view : EventView) : Event :=
  let n_particles := (view.type_sets.map (fun ts => ts.momenta.length)).sum
  let b0 := EventBuilder.with_capacity n_particles
  let b1 := view.weights.foldl EventBuilder.add_weight b0
  let b2 := view.type_sets.foldl
    (fun b ts => ts.momenta.foldl (fun b p => b.add_outgoing ts.pid p) b) b1
  b2.build

/-- Stated from the spec's words, for comparison with the adapter: the
outgoing-particle collection must contain one (particle-type, momentum)
entry for every momentum of every type set, preserving type-set order and
within-type-set order. -/
def specOutgoing (view : EventView) : List (Int × FourMomentum) :=
  view.type_sets.flatMap (fun ts => ts.momenta.map (fun p => (ts.pid, p)))

/-! ## Helper lemmas -/

theorem pushAll_events (r : Resampler) (evs : List Event) :
    (pushAll r evs).events = r.events ++ evs := by
  induction evs generalizing r with
  | nil => simp [pushAll]
  | cons e t ih =>
    show (pushAll (r.push e) t).events = _
    rw [ih]
    simp [Resampler.push]

theorem reserve_fold_events (caps : List Nat) (r : Resampler) :
    (caps.foldl Resampler.reserve r).events = r.events := by
  induction caps generalizing r with
  | nil => rfl
  | cons c t ih =>
    show (t.foldl Resampler.reserve (r.reserve c)).events = _
    rw [ih]
    rfl

theorem getD_of_getElem?_some {α} (l : List α) (n : Nat) (e d : α)
    (h : l[n]? = some e) : l.getD n d = e := by
  simp [List.getD, h]

theorem getD_of_getElem?_none {α} (l : List α) (n : Nat) (d : α)
    (h : l[n]? = none) : l.getD n d = d := by
  simp [List.getD, h]

theorem get_weights_some_elim (r : Resampler) (pos : Nat) (r' : Resampler)
    (v : List ℚ) (h : r.get_weights pos = some (r', v)) :
    r' = { r with
           last_retrieved_weights := (r.events.getD pos default).weights }
    ∧ v = (r.events.getD pos default).weights := by
  cases hq : r.events[pos]? with
  | none => simp [Resampler.get_weights, hq] at h
  | some e =>
    simp [Resampler.get_weights, hq] at h
    rw [getD_of_getElem?_some r.events pos e default hq]
    exact ⟨h.1.symm, h.2.symm⟩

/-! ## Witness fixtures -/

/-- A concrete distance metric for witnesses: all events at distance 0. -/
def sampleDist : Event → Event → ℚ := fun _ _ => 0

/-- First sample event, with the single weight -1. -/
def sampleEvent1 : Event := ⟨[-1], []⟩

/-- Second sample event, with the single weight 1. -/
def sampleEvent2 : Event := ⟨[1], []⟩

/-- A concrete two-event resampler with the naive backend. -/
def sampleResampler : Resampler :=
  ⟨sampleDist, Search.Naive, [sampleEvent1, sampleEvent2], [], 2⟩

/-- The sample resampler after retrieving the weights of event 0. -/
def sampleAfterGet : Resampler :=
  { sampleResampler with last_retrieved_weights := [-1] }

/-! ## Claims -/

/-- C2: pushing N events onto a freshly built resampler and then calling
`get_weights i` for any `i < N`, before any resample call, returns the
weight vector of the i-th pushed event, with values and order unchanged. -/
theorem push_then_get_weights_roundtrip (b : ResamplerBuilder)
    (evs : List Event) (i : Nat) (h : i < evs.length) :
    (Resampler.get_weights (pushAll b.build evs) i).map Prod.snd
      = some ((evs.getD i default).weights) := by
  have hev : (pushAll b.build evs).events = evs := by
    rw [pushAll_events]
    simp [ResamplerBuilder.build]
  have hq : (pushAll b.build evs).events[i]? = some evs[i] := by
    rw [hev]
    exact List.getElem?_eq_getElem h
  simp [Resampler.get_weights, hq, List.getD, List.getElem?_eq_getElem h]

/-- Witness for C2 at a concrete two-event sequence. -/
theorem push_then_get_weights_roundtrip_witness :
    1 < ([sampleEvent1, sampleEvent2] : List Event).length
    ∧ (Resampler.get_weights
        (pushAll (ResamplerBuilder.build ⟨sampleDist, Search.Naive⟩)
          [sampleEvent1, sampleEvent2]) 1).map Prod.snd
      = some (([sampleEvent1, sampleEvent2].getD 1 default).weights) :=
  ⟨by decide,
   push_then_get_weights_roundtrip ⟨sampleDist, Search.Naive⟩
     [sampleEvent1, sampleEvent2] 1 (by decide)⟩

/-- C5: `get_weights` copies the weights of the event at the queried index
into the last-retrieved-weights cache and returns exactly that cache, leaves
the buffer and configuration untouched, and a subsequent `get_weights` call
overwrites the cache with the newly queried vector, so the cache holds only
the most recently queried weight vector. -/
theorem get_weights_cache (r : Resampler) (pos : Nat) (r' : Resampler)
    (v : List ℚ) (h : r.get_weights pos = some (r', v)) :
    r'.last_retrieved_weights = (r.events.getD pos default).weights
    ∧ v = r'.last_retrieved_weights
    ∧ r'.events = r.events
    ∧ r'.distance = r.distance
    ∧ r'.neighbour_search = r.neighbour_search
    ∧ ∀ pos2 r'' v2, Resampler.get_weights r' pos2 = some (r'', v2) →
        r''.last_retrieved_weights = (r.events.getD pos2 default).weights := by
  obtain ⟨h1, h2⟩ := get_weights_some_elim r pos r' v h
  subst h1
  refine ⟨rfl, h2, rfl, rfl, rfl, ?_⟩
  intro pos2 r'' v2 h3
  obtain ⟨h4, _⟩ := get_weights_some_elim _ pos2 r'' v2 h3
  subst h4
  rfl

/-- Witness for C5: two successive retrievals on the sample resampler. -/
theorem get_weights_cache_witness :
    Resampler.get_weights sampleResampler 0 = some (sampleAfterGet, [-1])
    ∧ (sampleAfterGet.last_retrieved_weights
        = (sampleResampler.events.getD 0 default).weights) :=
  ⟨rfl,
   (get_weights_cache sampleResampler 0 sampleAfterGet [-1] rfl).1⟩

/-- C9: the indexed accessors `get_num_weights`, `get_weights` and
`set_weights` fail with an explicit bounds error for every index at or past
the buffer length, and succeed for every index below it. -/
theorem accessor_bounds (r : Resampler) (pos : Nat) (vs : List ℚ) :
    (r.events.length ≤ pos →
      r.get_num_weights pos = none
      ∧ r.get_weights pos = none
      ∧ r.set_weights pos vs = none)
    ∧ (pos < r.events.length →
      (r.get_num_weights pos).isSome
      ∧ (r.get_weights pos).isSome
      ∧ (r.set_weights pos vs).isSome) := by
  constructor
  · intro h
    have hn : r.events[pos]? = none := List.getElem?_eq_none h
    refine ⟨?_, ?_, ?_⟩ <;>
      simp [Resampler.get_num_weights, Resampler.get_weights,
        Resampler.set_weights, hn]
  · intro h
    have hs : r.events[pos]? = some r.events[pos] :=
      List.getElem?_eq_getElem h
    refine ⟨?_, ?_, ?_⟩ <;>
      simp [Resampler.get_num_weights, Resampler.get_weights,
        Resampler.set_weights, hs]

/-- Witness for C9: index 5 is out of range and index 0 is in range on the
two-event sample resampler. -/
theorem accessor_bounds_witness :
    (sampleResampler.events.length ≤ 5
      ∧ Resampler.get_weights sampleResampler 5 = none)
    ∧ (0 < sampleResampler.events.length
      ∧ (Resampler.get_weights sampleResampler 0).isSome) :=
  ⟨⟨by decide, ((accessor_bounds sampleResampler 5 []).1 (by decide)).2.1⟩,
   ⟨by decide, ((accessor_bounds sampleResampler 0 []).2 (by decide)).2.1⟩⟩

/-- C8: `reserve` has no observable semantic effect — events, cache and
configuration are unchanged — and repeated `reserve` calls never drop
existing events. -/
theorem reserve_no_observable_effect (r : Resampler) (cap : Nat) :
    (r.reserve cap).events = r.events
    ∧ (r.reserve cap).last_retrieved_weights = r.last_retrieved_weights
    ∧ (r.reserve cap).distance = r.distance
    ∧ (r.reserve cap).neighbour_search = r.neighbour_search
    ∧ ∀ caps : List Nat, (caps.foldl Resampler.reserve r).events = r.events :=
  ⟨rfl, rfl, rfl, rfl, fun caps => reserve_fold_events caps r⟩

/-- C10: `clear` empties the event buffer, leaves the last-retrieved-weights
cache untouched — after a `get_weights` call followed by `clear` the cache
still holds the retrieved vector — and a second `clear` is a no-op on the
already-empty buffer. -/
theorem clear_empties_buffer_keeps_cache (r : Resampler) :
    r.clear.events = []
    ∧ r.clear.last_retrieved_weights = r.last_retrieved_weights
    ∧ r.clear.clear = r.clear
    ∧ ∀ pos r' v, r.get_weights pos = some (r', v) →
        (Resampler.clear r').last_retrieved_weights = v := by
  refine ⟨rfl, rfl, rfl, ?_⟩
  intro pos r' v h
  obtain ⟨h1, h2⟩ := get_weights_some_elim r pos r' v h
  subst h1
  exact h2.symm

/-- Witness for C10: retrieve the weights of event 0, then clear. -/
theorem clear_empties_buffer_keeps_cache_witness :
    Resampler.get_weights sampleResampler 0 = some (sampleAfterGet, [-1])
    ∧ (Resampler.clear sampleAfterGet).last_retrieved_weights = [-1] :=
  ⟨rfl,
   (clear_empties_buffer_keeps_cache sampleResampler).2.2.2 0
     sampleAfterGet [-1] rfl⟩

/-! ## Overwrite-loop lemmas -/

theorem overwriteZipped_length (old ws : List ℚ) :
    (overwriteZipped old ws).length = old.length := by
  simp [overwriteZipped, List.length_zipWith]
  omega

theorem overwriteZipped_getD_lt (old ws : List ℚ) (k : Nat)
    (h : k < min old.length ws.length) :
    (overwriteZipped old ws).getD k 0 = ws.getD k 0 := by
  unfold overwriteZipped
  have hz : k < (List.zipWith (fun _ b : ℚ => b) old ws).length := by
    simp [List.length_zipWith]
    omega
  have hlen :
      k < (List.zipWith (fun _ b : ℚ => b) old ws ++ old.drop ws.length).length := by
    simp [List.length_zipWith, List.length_drop]
    omega
  have hw : k < ws.length := by omega
  rw [List.getD_eq_getElem _ _ hlen, List.getD_eq_getElem _ _ hw]
  rw [List.getElem_append_left hz]
  simp [List.getElem_zipWith]

theorem overwriteZipped_getD_ge (old ws : List ℚ) (k : Nat)
    (h : min old.length ws.length ≤ k) :
    (overwriteZipped old ws).getD k 0 = old.getD k 0 := by
  by_cases h2 : k < old.length
  · unfold overwriteZipped
    have hlen :
        k < (List.zipWith (fun _ b : ℚ => b) old ws ++ old.drop ws.length).length := by
      simp [List.length_zipWith, List.length_drop]
      omega
    rw [List.getD_eq_getElem _ _ hlen, List.getD_eq_getElem _ _ h2]
    have hz : (List.zipWith (fun _ b : ℚ => b) old ws).length ≤ k := by
      simp [List.length_zipWith]
      omega
    rw [List.getElem_append_right hz]
    rw [List.getElem_drop]
    congr 1
    simp [List.length_zipWith]
    omega
  · have hlen : old.length ≤ k := by omega
    have h3 : (overwriteZipped old ws).length ≤ k := by
      rw [overwriteZipped_length]
      exact hlen
    rw [getD_of_getElem?_none _ _ _ (List.getElem?_eq_none h3),
      getD_of_getElem?_none _ _ _ (List.getElem?_eq_none hlen)]

/-- C4: `set_weights` overwrites exactly the first
`min (existing count) (len values)` weights of the event at the given index,
leaves every other weight entry and every other event untouched, and never
changes the number of weights of the event. -/
theorem set_weights_overwrites_zipped (r : Resampler) (pos : Nat)
    (vs : List ℚ) (r' : Resampler) (h : r.set_weights pos vs = some r') :
    r'.events.length = r.events.length
    ∧ (∀ j, j ≠ pos → r'.events.getD j default = r.events.getD j default)
    ∧ (r'.events.getD pos default).n_weights
        = (r.events.getD pos default).n_weights
    ∧ (∀ k, k < min (r.events.getD pos default).weights.length vs.length →
        (r'.events.getD pos default).weights.getD k 0 = vs.getD k 0)
    ∧ (∀ k, min (r.events.getD pos default).weights.length vs.length ≤ k →
        (r'.events.getD pos default).weights.getD k 0
          = (r.events.getD pos default).weights.getD k 0)
    ∧ (r'.events.getD pos default).outgoing
        = (r.events.getD pos default).outgoing := by
  cases hq : r.events[pos]? with
  | none => simp [Resampler.set_weights, hq] at h
  | some e =>
    simp [Resampler.set_weights, hq] at h
    obtain ⟨hpos, -⟩ := List.getElem?_eq_some.mp hq
    subst h
    have hD : r.events.getD pos default = e :=
      getD_of_getElem?_some _ _ _ _ hq
    have hD' :
        (r.events.set pos
          { e with weights := overwriteZipped e.weights vs }).getD pos default
        = { e with weights := overwriteZipped e.weights vs } := by
      refine getD_of_getElem?_some _ _ _ _ ?_
      simp [List.getElem?_set_self, hpos, hq]
    refine ⟨by simp, ?_, ?_, ?_, ?_, ?_⟩
    · intro j hj
      show (r.events.set pos _).getD j default = _
      simp [List.getD, List.getElem?_set_ne (fun hc => hj hc.symm)]
    · show ((r.events.set pos _).getD pos default).n_weights = _
      rw [hD', hD]
      simp [Event.n_weights, overwriteZipped_length]
    · intro k hk
      rw [hD] at hk
      show ((r.events.set pos _).getD pos default).weights.getD k 0 = _
      rw [hD']
      exact overwriteZipped_getD_lt e.weights vs k hk
    · intro k hk
      rw [hD] at hk
      show ((r.events.set pos _).getD pos default).weights.getD k 0 = _
      rw [hD', hD]
      exact overwriteZipped_getD_ge e.weights vs k hk
    · show ((r.events.set pos _).getD pos default).outgoing = _
      rw [hD', hD]

/-- Witness for C4: overwrite the single weight of event 0 with 7. -/
theorem set_weights_overwrites_zipped_witness :
    Resampler.set_weights sampleResampler 0 [7, 8]
      = some { sampleResampler with
               events := [⟨[7], []⟩, sampleEvent2] }
    ∧ ({ sampleResampler with
         events := [(⟨[7], []⟩ : Event), sampleEvent2] } :
        Resampler).events.length = sampleResampler.events.length :=
  ⟨rfl,
   (set_weights_overwrites_zipped sampleResampler 0 [7, 8] _ rfl).1⟩

/-! ## Ingestion-adapter lemmas -/

theorem foldl_add_weight (ws : List ℚ) (b : EventBuilder) :
    (ws.foldl EventBuilder.add_weight b).weights = b.weights ++ ws
    ∧ (ws.foldl EventBuilder.add_weight b).outgoing = b.outgoing := by
  induction ws generalizing b with
  | nil => simp
  | cons w t ih =>
    obtain ⟨ih1, ih2⟩ := ih (b.add_weight w)
    constructor
    · show (t.foldl EventBuilder.add_weight (b.add_weight w)).weights = _
      rw [ih1]
      simp [EventBuilder.add_weight]
    · show (t.foldl EventBuilder.add_weight (b.add_weight w)).outgoing = _
      rw [ih2]
      rfl

theorem foldl_add_outgoing_inner (pid : Int) (ms : List FourMomentum)
    (b : EventBuilder) :
    (ms.foldl (fun b p => b.add_outgoing pid p) b).outgoing
      = b.outgoing ++ ms.map (fun p => (pid, p))
    ∧ (ms.foldl (fun b p => b.add_outgoing pid p) b).weights = b.weights := by
  induction ms generalizing b with
  | nil => simp
  | cons p t ih =>
    obtain ⟨ih1, ih2⟩ := ih (b.add_outgoing pid p)
    constructor
    · show (t.foldl _ (b.add_outgoing pid p)).outgoing = _
      rw [ih1]
      simp [EventBuilder.add_outgoing]
    · show (t.foldl _ (b.add_outgoing pid p)).weights = _
      rw [ih2]
      rfl

theorem foldl_add_outgoing_outer (tss : List TypeSetView) (b : EventBuilder) :
    (tss.foldl
      (fun b ts => ts.momenta.foldl (fun b p => b.add_outgoing ts.pid p) b)
      b).outgoing
      = b.outgoing ++ tss.flatMap (fun ts => ts.momenta.map (fun p => (ts.pid, p)))
    ∧ (tss.foldl
        (fun b ts => ts.momenta.foldl (fun b p => b.add_outgoing ts.pid p) b)
        b).weights = b.weights := by
  induction tss generalizing b with
  | nil => simp
  | cons ts t ih =>
    obtain ⟨hin1, hin2⟩ :=
      foldl_add_outgoing_inner ts.pid ts.momenta b
    obtain ⟨ih1, ih2⟩ :=
      ih (ts.momenta.foldl (fun b p => b.add_outgoing ts.pid p) b)
    constructor
    · simp only [List.foldl_cons]
      rw [ih1, hin1]
      simp
    · simp only [List.foldl_cons]
      rw [ih2, hin2]

/-- C6: the ingestion adapter produces an event whose weight sequence equals
the input weight array in length and order, and whose outgoing-particle
collection contains one (particle-type, four-momentum) entry for every
momentum of every type set, preserving the type-set order and the
within-type-set order. -/
theorem toEvent_preserves_view (view : EventView) :
    (toEvent view).weights = view.weights
    ∧ (toEvent view).outgoing = specOutgoing view := by
  unfold toEvent specOutgoing
  obtain ⟨hw1, ho1⟩ :=
    foldl_add_weight view.weights
      (EventBuilder.with_capacity
        ((view.type_sets.map (fun ts => ts.momenta.length)).sum))
  obtain ⟨ho2, hw2⟩ :=
    foldl_add_outgoing_outer view.type_sets
      (view.weights.foldl EventBuilder.add_weight
        (EventBuilder.with_capacity
          ((view.type_sets.map (fun ts => ts.momenta.length)).sum)))
  constructor
  · show (EventBuilder.build _).weights = _
    simp only [EventBuilder.build]
    rw [hw2, hw1]
    simp [EventBuilder.with_capacity]
  · show (EventBuilder.build _).outgoing = _
    simp only [EventBuilder.build]
    rw [ho2, ho1]
    simp [EventBuilder.with_capacity]

/-! ## Cell and resampling lemmas -/

theorem tree_perm_naive (d : Event → Event → ℚ) (evs : List Event) (m : ℚ)
    (s : Nat) :
    List.Perm (treeSearch d evs m s) (naiveNeighbourSearch d evs m s) :=
  (List.perm_insertionSort _ _).filter _

theorem mem_naive_lt (d : Event → Event → ℚ) (evs : List Event) (m : ℚ)
    (s j : Nat) (hj : j ∈ naiveNeighbourSearch d evs m s) : j < evs.length := by
  unfold naiveNeighbourSearch at hj
  exact List.mem_range.mp (List.mem_filter.mp hj).1

theorem mem_tree_lt (d : Event → Event → ℚ) (evs : List Event) (m : ℚ)
    (s j : Nat) (hj : j ∈ treeSearch d evs m s) : j < evs.length :=
  mem_naive_lt d evs m s j ((tree_perm_naive d evs m s).mem_iff.mp hj)

theorem mem_cellNew {ns : List Nat} {s j : Nat} (h : j ∈ cellNew ns s) :
    j = s ∨ j ∈ ns := by
  unfold cellNew at h
  by_cases hm : s ∈ ns
  · rw [if_pos hm] at h
    exact Or.inr h
  · rw [if_neg hm] at h
    exact List.mem_cons.mp h

theorem mem_cellOf_lt (r : Resampler) (seed : Nat) (m : ℚ)
    (hs : seed < r.events.length) :
    ∀ j ∈ cellOf r seed m, j < r.events.length := by
  intro j hj
  unfold cellOf at hj
  cases hb : r.neighbour_search with
  | Tree =>
    rw [hb] at hj
    rcases mem_cellNew hj with h | h
    · omega
    · exact mem_tree_lt _ _ _ _ _ h
  | Naive =>
    rw [hb] at hj
    rcases mem_cellNew hj with h | h
    · omega
    · exact mem_naive_lt _ _ _ _ _ h

theorem cellResample_length (events : List Event) (members : List Nat) :
    (cellResample events members).length = events.length := by
  simp [cellResample]

theorem cellResample_getD (events : List Event) (members : List Nat) (j : Nat)
    (hj : j < events.length) :
    (cellResample events members).getD j default
      = cellResampleAt events members j := by
  unfold cellResample
  have hlen :
      j < ((List.range events.length).map (cellResampleAt events members)).length := by
    simpa using hj
  rw [List.getD_eq_getElem _ _ hlen]
  simp

theorem sum_map_const_rat (l : List ℚ) (c : ℚ) :
    (l.map (fun _ => c)).sum = (l.length : ℚ) * c := by
  induction l with
  | nil => simp
  | cons a t ih =>
    simp [ih]
    ring

theorem sum_map_mul_right_rat (l : List Nat) (f : Nat → ℚ) (c : ℚ) :
    (l.map (fun x => f x * c)).sum = (l.map f).sum * c := by
  induction l with
  | nil => simp
  | cons a t ih => simp [ih, add_mul]

theorem sum_map_natCast (l : List Nat) (g : Nat → Nat) :
    (l.map (fun x => ((g x : Nat) : ℚ))).sum = (((l.map g).sum : Nat) : ℚ) := by
  induction l with
  | nil => simp
  | cons a t ih => simp [ih]

theorem cellResample_preserves_sum (events : List Event) (members : List Nat)
    (hb : ∀ j ∈ members, j < events.length) :
    memberWeightSum (cellResample events members) members
      = memberWeightSum events members := by
  have hmem : ∀ j ∈ members,
      ((cellResample events members).getD j default).weights.sum
        = ((events.getD j default).weights.length : ℚ)
            * (memberWeightSum events members
                / (memberWeightCount events members : ℚ)) := by
    intro j hj
    rw [cellResample_getD events members j (hb j hj)]
    unfold cellResampleAt
    rw [if_pos hj]
    exact sum_map_const_rat _ _
  have h1 : memberWeightSum (cellResample events members) members
      = (members.map (fun j =>
          ((events.getD j default).weights.length : ℚ)
            * (memberWeightSum events members
                / (memberWeightCount events members : ℚ)))).sum := by
    unfold memberWeightSum
    exact congrArg List.sum (List.map_congr_left hmem)
  rw [h1, sum_map_mul_right_rat, sum_map_natCast]
  show ((memberWeightCount events members : Nat) : ℚ)
      * (memberWeightSum events members
          / (memberWeightCount events members : ℚ)) = _
  by_cases hK : memberWeightCount events members = 0
  · have hlen0 : ∀ j ∈ members, (events.getD j default).weights.length = 0 := by
      intro j hj
      have := List.sum_eq_zero_iff.mp hK
      exact this _ (List.mem_map.mpr ⟨j, hj, rfl⟩)
    have hT : memberWeightSum events members = 0 := by
      unfold memberWeightSum
      apply List.sum_eq_zero
      intro x hx
      obtain ⟨j, hj, rfl⟩ := List.mem_map.mp hx
      rw [List.length_eq_zero.mp (hlen0 j hj)]
      rfl
    rw [hK, hT]
    simp
  · have hne : ((memberWeightCount events members : Nat) : ℚ) ≠ 0 :=
      Nat.cast_ne_zero.mpr hK
    rw [mul_comm, div_mul_cancel₀ _ hne]

/-- C1: for every event buffer, valid seed index and max cell size, and for
either configured backend, the sum of all weights over the events belonging
to the cell constructed by `resample_cell` is the same before and after the
call (exactly, in the rational-number model of the machine floats). -/
theorem resample_cell_preserves_cell_weight_sum (r : Resampler) (seed : Nat)
    (m : ℚ) (h : seed < r.events.length) :
    (r.resample_cell seed m).map
        (fun r' => memberWeightSum r'.events (cellOf r seed m))
      = some (memberWeightSum r.events (cellOf r seed m)) := by
  unfold Resampler.resample_cell
  rw [if_pos h]
  show some (memberWeightSum (cellResample r.events (cellOf r seed m))
      (cellOf r seed m)) = _
  exact congrArg some
    (cellResample_preserves_sum r.events (cellOf r seed m)
      (mem_cellOf_lt r seed m h))

/-- Witness for C1 on the concrete two-event resampler, both weights within
the cell around seed 0. -/
theorem resample_cell_preserves_cell_weight_sum_witness :
    0 < sampleResampler.events.length
    ∧ (Resampler.resample_cell sampleResampler 0 1).map
        (fun r' => memberWeightSum r'.events (cellOf sampleResampler 0 1))
      = some (memberWeightSum sampleResampler.events
          (cellOf sampleResampler 0 1)) :=
  ⟨by decide,
   resample_cell_preserves_cell_weight_sum sampleResampler 0 1 (by decide)⟩

/-- C7: `resample_cell` mutates only the weights of events belonging to the
constructed cell — the buffer length is unchanged, events outside the cell
are entirely unchanged, the non-weight data of every event is unchanged, and
the cache and configuration are untouched. -/
theorem resample_cell_frame (r : Resampler) (seed : Nat) (m : ℚ)
    (h : seed < r.events.length) :
    (r.resample_cell seed m).map (fun r' => r'.events.length)
      = some r.events.length
    ∧ (r.resample_cell seed m).map Resampler.last_retrieved_weights
      = some r.last_retrieved_weights
    ∧ (r.resample_cell seed m).map Resampler.neighbour_search
      = some r.neighbour_search
    ∧ (∀ j, j < r.events.length → j ∉ cellOf r seed m →
        (r.resample_cell seed m).map (fun r' => r'.events.getD j default)
          = some (r.events.getD j default))
    ∧ (∀ j, (r.resample_cell seed m).map
          (fun r' => (r'.events.getD j default).outgoing)
        = some ((r.events.getD j default).outgoing)) := by
  unfold Resampler.resample_cell
  rw [if_pos h]
  refine ⟨congrArg some (cellResample_length _ _), rfl, rfl, ?_, ?_⟩
  · intro j hj hnot
    show some ((cellResample r.events (cellOf r seed m)).getD j default) = _
    rw [cellResample_getD _ _ _ hj]
    unfold cellResampleAt
    rw [if_neg hnot]
  · intro j
    by_cases hj : j < r.events.length
    · show some (((cellResample r.events (cellOf r seed m)).getD j default).outgoing) = _
      rw [cellResample_getD _ _ _ hj]
      unfold cellResampleAt
      by_cases hmem : j ∈ cellOf r seed m
      · rw [if_pos hmem]
      · rw [if_neg hmem]
    · have h1 : (cellResample r.events (cellOf r seed m)).length ≤ j := by
        rw [cellResample_length]
        omega
      show some (((cellResample r.events (cellOf r seed m)).getD j default).outgoing) = _
      rw [getD_of_getElem?_none _ _ _ (List.getElem?_eq_none h1),
        getD_of_getElem?_none _ _ _ (List.getElem?_eq_none (by omega))]

/-- Witness for C7 on the concrete two-event resampler. -/
theorem resample_cell_frame_witness :
    0 < sampleResampler.events.length
    ∧ (Resampler.resample_cell sampleResampler 0 1).map
        (fun r' => r'.events.length)
      = some sampleResampler.events.length :=
  ⟨by decide, (resample_cell_frame sampleResampler 0 1 (by decide)).1⟩

theorem cellNew_perm {ns1 ns2 : List Nat} (s : Nat) (h : List.Perm ns1 ns2) :
    List.Perm (cellNew ns1 s) (cellNew ns2 s) := by
  unfold cellNew
  by_cases hm : s ∈ ns1
  · rw [if_pos hm, if_pos (h.mem_iff.mp hm)]
    exact h
  · rw [if_neg hm, if_neg (fun hc => hm (h.mem_iff.mpr hc))]
    exact h.cons s

theorem cellOf_tree_perm_naive (d : Event → Event → ℚ) (evs : List Event)
    (cache : List ℚ) (cap : Nat) (seed : Nat) (m : ℚ) :
    List.Perm (cellOf ⟨d, Search.Tree, evs, cache, cap⟩ seed m)
      (cellOf ⟨d, Search.Naive, evs, cache, cap⟩ seed m) := by
  show List.Perm (cellNew (treeSearch d evs m seed) seed)
    (cellNew (naiveNeighbourSearch d evs m seed) seed)
  exact cellNew_perm seed (tree_perm_naive d evs m seed)

theorem cellResample_perm_congr (events : List Event) {ms1 ms2 : List Nat}
    (h : List.Perm ms1 ms2) :
    cellResample events ms1 = cellResample events ms2 := by
  have hT : memberWeightSum events ms1 = memberWeightSum events ms2 :=
    (h.map _).sum_eq
  have hK : memberWeightCount events ms1 = memberWeightCount events ms2 :=
    (h.map _).sum_eq
  unfold cellResample
  refine List.map_congr_left (fun j _ => ?_)
  unfold cellResampleAt
  rw [hT, hK]
  by_cases hm : j ∈ ms1
  · rw [if_pos hm, if_pos (h.mem_iff.mp hm)]
  · rw [if_neg hm, if_neg (fun hc => hm (h.mem_iff.mpr hc))]

/-- C3: for a fixed event buffer, seed index and max cell size, the
tree-based and the naive backend produce identical post-resample event
buffers — in particular identical weights — and both construct the same
neighbour set. -/
theorem tree_naive_backend_equivalence (d : Event → Event → ℚ)
    (evs : List Event) (cache : List ℚ) (cap : Nat) (seed : Nat) (m : ℚ) :
    (Resampler.resample_cell ⟨d, Search.Tree, evs, cache, cap⟩ seed m).map
        Resampler.events
      = (Resampler.resample_cell ⟨d, Search.Naive, evs, cache, cap⟩ seed m).map
        Resampler.events
    ∧ ∀ j, j ∈ cellOf ⟨d, Search.Tree, evs, cache, cap⟩ seed m
        ↔ j ∈ cellOf ⟨d, Search.Naive, evs, cache, cap⟩ seed m := by
  have hp := cellOf_tree_perm_naive d evs cache cap seed m
  constructor
  · unfold Resampler.resample_cell
    by_cases hs : seed < evs.length
    · rw [if_pos hs, if_pos hs]
      show some (cellResample evs (cellOf ⟨d, Search.Tree, evs, cache, cap⟩ seed m))
        = some (cellResample evs (cellOf ⟨d, Search.Naive, evs, cache, cap⟩ seed m))
      exact congrArg some (cellResample_perm_congr evs hp)
    · rw [if_neg hs, if_neg hs]
  · intro j
    exact hp.mem_iff
